import Mathlib

namespace ListSet

/-!
## Ordered list set (`src/list_set.rs`)

A linked list of `Node<T>` values is embedded as the `List T` of the node
payloads in link order (head first).  The lock-coupling cursor of the source
walks this sequence front to back, so `Cursor::find`, `insert`, `remove` and
`contains` become structural recursions over the payload list.
-/

variable {T : Type} [LinearOrder T]

/-- Model of `Cursor::find`: walk from the cursor; stop with `false` on null or on a
node whose data exceeds the key, with `true` on a node whose data equals the
key, otherwise advance to the next node. -/
def cursor_find : List T → T → Bool
  | [], _ => false
  | x :: xs, k =>
    if x > k then false
    else if x = k then true
    else cursor_find xs k

/-- Model of `OrderedListSet::contains`: run `find` from the head and return the
boolean. -/
def list_contains (l : List T) (k : T) : Bool :=
  cursor_find l k

/-- Model of `OrderedListSet::insert`: `find` the key; if found return `Err(key)` and
leave the list alone, otherwise splice a new node holding the key into the
cursor's slot, in front of the first node whose data exceeds the key.  The
second component is the list after the call. -/
def list_insert : List T → T → Except T Unit × List T
  | [], k => (Except.ok (), [k])
  | x :: xs, k =>
    if x > k then (Except.ok (), k :: x :: xs)
    else if x = k then (Except.error k, x :: xs)
    else
      let r := list_insert xs k
      (r.1, x :: r.2)

/-- Model of `OrderedListSet::remove`: `find` the key; if not found return `Err(())`,
otherwise unlink the found node, return its data in `Ok`, and free it.  The
second component is the list after the call. -/
def list_remove : List T → T → Except Unit T × List T
  | [], _ => (Except.error (), [])
  | x :: xs, k =>
    if x > k then (Except.error (), x :: xs)
    else if x = k then (Except.ok x, xs)
    else
      let r := list_remove xs k
      (r.1, x :: r.2)

/-- Model of `OrderedListSet::iter`: the iterator holds hand-over-hand guards and
yields each node's data front to back, i.e. the payload list itself. -/
def list_iter (l : List T) : List T := l

/-- A call against the set: `insert k` or `remove k`. -/
inductive SetOp (T : Type) : Type
  | ins (k : T)
  | rem (k : T)

/-- The list after one call; a failed call has left the list unchanged. -/
def apply_op (l : List T) : SetOp T → List T
  | SetOp.ins k => (list_insert l k).2
  | SetOp.rem k => (list_remove l k).2

/-- The list after a sequence of calls starting from `l`. -/
def apply_ops (l : List T) (ops : List (SetOp T)) : List T :=
  ops.foldl apply_op l

end ListSet

namespace Hazard

/-!
## Hazard pointers (`src/hazard_pointer/hazard.rs`, `retire.rs`)

The grow-only slot list hanging off `HazardBag.head` is embedded as a
`List HazardSlotM` in link order (head first).  Machine pointers are `Nat`
(the `usize` machine representation used by the source); the null hazard is
the word `0`.  Deleters are kept abstract as a type parameter `D`.
-/

/-- One `HazardSlot`: the `active` flag and the `hazard` machine word.  The
`next` link is the list structure itself. -/
structure HazardSlotM : Type where
  active : Bool
  hazard : Nat
deriving DecidableEq

/-- Model of `HazardSlot::new`: a fresh slot is created active with hazard `0`. -/
def HazardSlotM.fresh : HazardSlotM :=
  { active := true, hazard := 0 }

/-- Model of `HazardBag::all_hazards`: walk from the head, inserting the hazard word
of every slot whose active flag reads true; the `HashSet` becomes a
`Finset Nat`. -/
def all_hazards (slots : List HazardSlotM) : Finset Nat :=
  slots.foldl (fun acc s => if s.active then insert s.hazard acc else acc) ∅

/-- Model of `HazardBag::try_acquire_inactive`: walk from the head and CAS the first
slot whose active flag is false to true; return its index and the updated
list, or `none` when every slot is active. -/
def try_acquire_inactive : List HazardSlotM → Option (Nat × List HazardSlotM)
  | [] => none
  | s :: rest =>
    if s.active then
      match try_acquire_inactive rest with
      | some (i, rest') => some (i + 1, s :: rest')
      | none => none
    else
      some (0, { s with active := true } :: rest)

/-- Model of `HazardBag::acquire_slot`: recycle an inactive slot when one exists,
otherwise allocate a fresh slot and install it at the head.  The boolean
records whether a new slot was allocated. -/
def acquire_slot (slots : List HazardSlotM) : List HazardSlotM × Bool :=
  match try_acquire_inactive slots with
  | some (_, slots') => (slots', false)
  | none => (HazardSlotM.fresh :: slots, true)

/-- Model of `Shield::drop`: store 0 into the hazard word, then flip active to false,
at the shield's slot index. -/
def release_slot (slots : List HazardSlotM) (i : Nat) : List HazardSlotM :=
  slots.set i { active := false, hazard := 0 }

/-- Dropping a collection of shields releases each one's slot. -/
def release_all (slots : List HazardSlotM) (idxs : List Nat) :
    List HazardSlotM :=
  idxs.foldl release_slot slots

/-- Acquiring `m` shields in sequence against the same registry. -/
def acquire_many : Nat → List HazardSlotM → List HazardSlotM
  | 0, slots => slots
  | m + 1, slots => acquire_many m (acquire_slot slots).1

/-- Number of inactive (recyclable) slots in the registry. -/
def count_inactive (slots : List HazardSlotM) : Nat :=
  slots.countP (fun s => !s.active)

/-!
### `Shield::try_protect`

The state touched by `try_protect` is the caller's pointer cell `*pointer`,
the current value of the atomic `src`, and the slot's hazard word.  The
fences and memory orders govern visibility only; the value-level behaviour
is the straight-line program embedded below.
-/

/-- Result of `try_protect`: the returned boolean, the value left in
`*pointer`, and the value left in the slot's hazard word. -/
structure ProtectResult : Type where
  validated : Bool
  pointer : Nat
  hazard : Nat
deriving DecidableEq

/-- Model of `Shield::try_protect`: publish `*pointer` into the hazard word, reload
`src` (whose current value is `src_now`), and compare; on mismatch overwrite
`*pointer` with the loaded value and clear the hazard word to 0. -/
def try_protect (p : Nat) (src_now : Nat) (_hazard0 : Nat) : ProtectResult :=
  let hazard1 := p
  let source := src_now
  if p = source then
    { validated := true, pointer := p, hazard := hazard1 }
  else
    { validated := false, pointer := source, hazard := 0 }

/-!
### `RetiredSet::collect` (`src/hazard_pointer/retire.rs`)

A retired entry is a pair of the machine pointer and its type-erased
deleter; deleters stay abstract as a type parameter `D`.  `collect`
snapshots `all_hazards()` once, then walks the buffer front to back,
invoking the deleter of every entry whose pointer is not in the snapshot
and keeping the others.
-/

/-- The loop inside `collect`, run against a fixed snapshot `hz`: returns
the entries whose deleters were invoked (in invocation order) and the new
buffer contents (in order). -/
def collect_loop {D : Type} (hz : Finset Nat) :
    List (Nat × D) → List (Nat × D) × List (Nat × D)
  | [] => ([], [])
  | (p, d) :: rest =>
    let r := collect_loop hz rest
    if p ∈ hz then (r.1, (p, d) :: r.2)
    else ((p, d) :: r.1, r.2)

/-- A `RetiredSet`: the registry it reclaims against and its local buffer. -/
structure RetiredSetM (D : Type) : Type where
  hazards : List HazardSlotM
  inner : List (Nat × D)

/-- Model of `RetiredSet::collect`: snapshot `all_hazards()`, partition the buffer,
keep the still-protected entries and return the freed ones. -/
def RetiredSetM.collect {D : Type} (r : RetiredSetM D) :
    RetiredSetM D × List (Nat × D) :=
  let hz := all_hazards r.hazards
  let part := collect_loop hz r.inner
  ({ r with inner := part.2 }, part.1)

end Hazard

namespace Pool

/-!
## Thread pool (`src/hello_server/thread_pool.rs`)

`ThreadPoolInner` holds the mutex-guarded job counter and the condition
variable.  The counter operations are embedded over the counter value; the
wrapped job closure built by `execute` is embedded with an explicit
normal/unwinding outcome, and the loop body of `wait_empty` and the body of
`finish_job` are embedded as the lists of synchronization primitives they
perform.
-/

/-- The mutex-guarded state of `ThreadPoolInner`. -/
structure ThreadPoolInner : Type where
  job_count : Nat
deriving DecidableEq

/-- Model of `ThreadPoolInner::start_job`: increment the job count. -/
def start_job (s : ThreadPoolInner) : ThreadPoolInner :=
  { job_count := s.job_count + 1 }

/-- Model of `ThreadPoolInner::finish_job`: decrement the job count. -/
def finish_job (s : ThreadPoolInner) : ThreadPoolInner :=
  { job_count := s.job_count - 1 }

/-- How the submitted closure `f` exits: normal return or unwinding. -/
inductive JobOutcome : Type
  | normal
  | panicked
deriving DecidableEq

/-- The closure built by `ThreadPool::execute`: `f()` then
`inner_pool.finish_job()`.  There is no scope guard, so when `f` unwinds
control leaves the closure before `finish_job` runs.  Returns the pool
state after the closure exits and whether `finish_job` was invoked. -/
def run_wrapped_job (o : JobOutcome) (s : ThreadPoolInner) :
    ThreadPoolInner × Bool :=
  match o with
  | JobOutcome.normal => (finish_job s, true)
  | JobOutcome.panicked => (s, false)

/-- The exit test of the `wait_empty` loop: the loop breaks exactly when the
locked counter reads 0; otherwise the guard is dropped and the loop
re-locks. -/
def wait_empty_exits (s : ThreadPoolInner) : Bool :=
  s.job_count == 0

/-- Synchronization primitives a `ThreadPoolInner` method can perform. -/
inductive PoolPrim : Type
  | lock_job_count
  | unlock_job_count
  | condvar_wait
  | condvar_notify
  | print_count
deriving DecidableEq

/-- The primitives of one iteration of the `wait_empty` loop on counter
value `n`: lock, compare with 0, (print when nonzero), unlock.  The
`empty_condvar` is never waited on. -/
def wait_empty_iter_prims (n : Nat) : List PoolPrim :=
  if n = 0 then [PoolPrim.lock_job_count, PoolPrim.unlock_job_count]
  else [PoolPrim.lock_job_count, PoolPrim.print_count,
    PoolPrim.unlock_job_count]

/-- The primitives of `finish_job`: lock, decrement, unlock.  The
`empty_condvar` is never notified. -/
def finish_job_prims : List PoolPrim :=
  [PoolPrim.lock_job_count, PoolPrim.unlock_job_count]

/-- Model of `ThreadPool::join` calls only `wait_empty`, which reads the counter:
the pool state (workers, sender, counter) is untouched, so the pool is not
shut down and `join` may be called again. -/
def pool_join (s : ThreadPoolInner) : ThreadPoolInner := s

end Pool

namespace Cache

/-!
## Single-flight cache (`src/hello_server/cache.rs`)

`Cache::get_or_insert_with` is concurrent code whose shared state is the
`RwLock`-guarded map.  Projected onto one fixed key `k`, the entry for `k`
is in one of three states: absent (`get` returns `None`), pending (the map
holds `Arc<None>`), or ready (the map holds `Arc<Some(v))`).  The entry for
`k` is never removed, and entries for other keys do not affect it, so the
lock-protected critical sections of every caller on key `k` become the
atomic steps of the transition system below.

Thread `i`'s producer closure computes the value `f i`.  The source runs
each critical section under the read or write lock, so each step is atomic;
a caller walks: first read of the map (`start`), the write-lock section of
the insertion branch (`write_attempt`), running the producer without any
lock (`run_producer`), the write-back of the computed value (`write_back`),
and the re-read loop used for pending entries (`poll`); `done v` means the
call returned `v`.
-/

/-- The state of the map entry for the fixed key. -/
inductive Entry (V : Type) : Type
  | absent
  | pending
  | ready (v : V)

/-- The control state of one caller of `get_or_insert_with`. -/
inductive TState (V : Type) : Type
  | start
  | write_attempt
  | run_producer
  | write_back (v : V)
  | poll
  | done (v : V)

/-- A configuration: the entry for the key, each caller's control state,
and the list of producer invocations performed so far. -/
structure Config (I V : Type) : Type where
  entry : Entry V
  tstate : I → TState V
  runs : List I

/-- The initial configuration: key absent, every caller at its first read,
no producer run yet. -/
def Config.init (I V : Type) : Config I V :=
  { entry := Entry.absent, tstate := fun _ => TState.start, runs := [] }

/-- The atomic steps of `get_or_insert_with` on the fixed key, one per
lock-protected critical section of the source (plus the unlocked producer
call).  `f i` is the value caller `i`'s producer would compute. -/
inductive Step {I V : Type} [DecidableEq I] (f : I → V) :
    Config I V → Config I V → Prop
  | read_ready (c : Config I V) (i : I) (v : V) :
      c.tstate i = TState.start → c.entry = Entry.ready v →
      Step f c { c with tstate := Function.update c.tstate i (TState.done v) }
  | read_pending (c : Config I V) (i : I) :
      c.tstate i = TState.start → c.entry = Entry.pending →
      Step f c { c with tstate := Function.update c.tstate i TState.poll }
  | read_absent (c : Config I V) (i : I) :
      c.tstate i = TState.start → c.entry = Entry.absent →
      Step f c
        { c with tstate := Function.update c.tstate i TState.write_attempt }
  | write_elect (c : Config I V) (i : I) :
      c.tstate i = TState.write_attempt → c.entry = Entry.absent →
      Step f c
        { entry := Entry.pending,
          tstate := Function.update c.tstate i TState.run_producer,
          runs := c.runs }
  | write_lost (c : Config I V) (i : I) :
      c.tstate i = TState.write_attempt → c.entry ≠ Entry.absent →
      Step f c { c with tstate := Function.update c.tstate i TState.poll }
  | produce (c : Config I V) (i : I) :
      c.tstate i = TState.run_producer →
      Step f c
        { c with
          tstate := Function.update c.tstate i (TState.write_back (f i)),
          runs := c.runs ++ [i] }
  | write_back_commit (c : Config I V) (i : I) (v : V) :
      c.tstate i = TState.write_back v →
      Step f c
        { entry := Entry.ready v,
          tstate := Function.update c.tstate i (TState.done v),
          runs := c.runs }
  | poll_ready (c : Config I V) (i : I) (v : V) :
      c.tstate i = TState.poll → c.entry = Entry.ready v →
      Step f c { c with tstate := Function.update c.tstate i (TState.done v) }

/-- A configuration reachable from the initial one by caller steps in any
interleaving. -/
def Reachable {I V : Type} [DecidableEq I] (f : I → V) (c : Config I V) :
    Prop :=
  Relation.ReflTransGen (Step f) (Config.init I V) c

/-- The inductive invariant: the entry state determines how far the
election has progressed.  While the entry is absent nothing has run; while
it is pending exactly one elected caller is producing or writing back;
once it is ready the single run's value is stored and every finished
caller returned it. -/
def Inv {I V : Type} (f : I → V) (c : Config I V) : Prop :=
  match c.entry with
  | Entry.absent =>
      c.runs = [] ∧
      ∀ i, c.tstate i = TState.start ∨ c.tstate i = TState.write_attempt
  | Entry.pending =>
      ∃ i0,
        ((c.tstate i0 = TState.run_producer ∧ c.runs = []) ∨
          (c.tstate i0 = TState.write_back (f i0) ∧ c.runs = [i0])) ∧
        ∀ i, i ≠ i0 → c.tstate i = TState.start ∨
          c.tstate i = TState.write_attempt ∨ c.tstate i = TState.poll
  | Entry.ready v =>
      ∃ i0, c.runs = [i0] ∧ v = f i0 ∧
        ∀ i, c.tstate i = TState.start ∨ c.tstate i = TState.write_attempt ∨
          c.tstate i = TState.poll ∨ c.tstate i = TState.done v

end Cache

namespace ListSet

variable {T : Type} [LinearOrder T]

/-- Members of the list after `insert` are the new key or old members. -/
lemma mem_list_insert {l : List T} {k b : T} (hb : b ∈ (list_insert l k).2) :
    b = k ∨ b ∈ l := by
  induction l with
  | nil =>
    simp only [list_insert] at hb
    simp at hb
    exact Or.inl hb
  | cons x xs ih =>
    simp only [list_insert] at hb
    by_cases h1 : x > k
    · simp [h1] at hb
      rcases hb with h | h | h
      · exact Or.inl h
      · exact Or.inr (by simp [h])
      · exact Or.inr (by simp [h])
    · by_cases h2 : x = k
      · simp [h1, h2] at hb
        rcases hb with h | h
        · exact Or.inl h
        · exact Or.inr (by simp [h])
      · simp [h1, h2] at hb
        rcases hb with h | h
        · exact Or.inr (by simp [h])
        · rcases ih h with h' | h'
          · exact Or.inl h'
          · exact Or.inr (by simp [h'])

/-- Model of `insert` preserves strict sortedness. -/
lemma sorted_list_insert {l : List T} (hs : l.Sorted (· < ·)) (k : T) :
    ((list_insert l k).2).Sorted (· < ·) := by
  induction l with
  | nil => simp [list_insert]
  | cons x xs ih =>
    rw [List.sorted_cons] at hs
    obtain ⟨hx, hxs⟩ := hs
    simp only [list_insert]
    by_cases h1 : x > k
    · simp only [if_pos h1]
      rw [List.sorted_cons]
      refine ⟨?_, ?_⟩
      · intro b hb
        rcases List.mem_cons.mp hb with h | h
        · exact h ▸ h1
        · exact lt_trans h1 (hx b h)
      · rw [List.sorted_cons]; exact ⟨hx, hxs⟩
    · by_cases h2 : x = k
      · simp only [if_neg h1, if_pos h2]
        rw [List.sorted_cons]; exact ⟨hx, hxs⟩
      · simp only [if_neg h1, if_neg h2]
        rw [List.sorted_cons]
        refine ⟨?_, ih hxs⟩
        intro b hb
        rcases mem_list_insert hb with h | h
        · subst h
          exact lt_of_le_of_ne (le_of_not_lt h1) h2
        · exact hx b h

/-- The list after `remove` is a sublist of the original list. -/
lemma sublist_list_remove (l : List T) (k : T) :
    (list_remove l k).2.Sublist l := by
  induction l with
  | nil => simp [list_remove]
  | cons x xs ih =>
    simp only [list_remove]
    by_cases h1 : x > k
    · simp [h1]
    · by_cases h2 : x = k
      · simp only [if_neg h1, if_pos h2]
        exact List.sublist_cons_self x xs
      · simp only [if_neg h1, if_neg h2]
        exact List.Sublist.cons₂ x ih

/-- Model of `remove` preserves strict sortedness. -/
lemma sorted_list_remove {l : List T} (hs : l.Sorted (· < ·)) (k : T) :
    ((list_remove l k).2).Sorted (· < ·) :=
  hs.sublist (sublist_list_remove l k)

/-- Any sequence of calls starting from a sorted list leaves it sorted. -/
lemma sorted_apply_ops {l : List T} (hs : l.Sorted (· < ·))
    (ops : List (SetOp T)) : (apply_ops l ops).Sorted (· < ·) := by
  induction ops generalizing l with
  | nil => exact hs
  | cons op ops ih =>
    simp only [apply_ops, List.foldl_cons]
    apply ih
    cases op with
    | ins k => exact sorted_list_insert hs k
    | rem k => exact sorted_list_remove hs k

/-- On a sorted list, `Cursor::find` succeeds exactly on members: the early
stop at the first node with data above the key loses nothing. -/
lemma cursor_find_iff_mem {l : List T} (hs : l.Sorted (· < ·)) (k : T) :
    cursor_find l k = true ↔ k ∈ l := by
  induction l with
  | nil => simp [cursor_find]
  | cons x xs ih =>
    rw [List.sorted_cons] at hs
    obtain ⟨hx, hxs⟩ := hs
    by_cases h1 : x > k
    · simp only [cursor_find, if_pos h1]
      constructor
      · intro h; exact absurd h (by simp)
      · intro h
        rcases List.mem_cons.mp h with h | h
        · exact absurd (h ▸ h1) (lt_irrefl k)
        · exact absurd h1 (not_lt_of_lt (hx k h))
    · by_cases h2 : x = k
      · simp [cursor_find, h1, h2]
      · simp only [cursor_find, if_neg h1, if_neg h2]
        rw [ih hxs, List.mem_cons]
        constructor
        · exact Or.inr
        · intro h
          rcases h with h | h
          · exact absurd h.symm h2
          · exact h

/-- When the key is absent, `insert` reports success. -/
lemma list_insert_of_not_mem {l : List T} {k : T} (h : k ∉ l) :
    (list_insert l k).1 = Except.ok () := by
  induction l with
  | nil => simp [list_insert]
  | cons x xs ih =>
    simp only [list_insert]
    by_cases h1 : x > k
    · simp [h1]
    · have h2 : ¬x = k := fun hk => h (by simp [hk])
      simp only [if_neg h1, if_neg h2]
      exact ih (fun hk => h (by simp [hk]))

/-- When the key is present in a sorted list, `insert` returns the rejected
key in the error and leaves the list unchanged. -/
lemma list_insert_of_mem {l : List T} {k : T} (hs : l.Sorted (· < ·))
    (h : k ∈ l) : list_insert l k = (Except.error k, l) := by
  induction l with
  | nil => simp at h
  | cons x xs ih =>
    rw [List.sorted_cons] at hs
    obtain ⟨hx, hxs⟩ := hs
    simp only [list_insert]
    by_cases h1 : x > k
    · exfalso
      rcases List.mem_cons.mp h with hk | hk
      · exact absurd (hk ▸ h1) (lt_irrefl k)
      · exact absurd h1 (not_lt_of_lt (hx k hk))
    · by_cases h2 : x = k
      · simp [h1, h2]
      · have hk : k ∈ xs := by
          rcases List.mem_cons.mp h with hk | hk
          · exact absurd hk.symm h2
          · exact hk
        simp [h1, h2, ih hxs hk]

/-- When the key is absent, `remove` reports a unit failure and leaves the
list unchanged. -/
lemma list_remove_of_not_mem {l : List T} {k : T} (h : k ∉ l) :
    list_remove l k = (Except.error (), l) := by
  induction l with
  | nil => simp [list_remove]
  | cons x xs ih =>
    simp only [list_remove]
    by_cases h1 : x > k
    · simp [h1]
    · have h2 : ¬x = k := fun hk => h (by simp [hk])
      simp only [if_neg h1, if_neg h2]
      rw [ih (fun hk => h (by simp [hk]))]

/-- When the key is present in a sorted list, `remove` returns the unlinked
node's data (the key) and the key is gone from the resulting list. -/
lemma list_remove_of_mem {l : List T} {k : T} (hs : l.Sorted (· < ·))
    (h : k ∈ l) :
    (list_remove l k).1 = Except.ok k ∧ k ∉ (list_remove l k).2 := by
  induction l with
  | nil => simp at h
  | cons x xs ih =>
    rw [List.sorted_cons] at hs
    obtain ⟨hx, hxs⟩ := hs
    simp only [list_remove]
    by_cases h1 : x > k
    · exfalso
      rcases List.mem_cons.mp h with hk | hk
      · exact absurd (hk ▸ h1) (lt_irrefl k)
      · exact absurd h1 (not_lt_of_lt (hx k hk))
    · by_cases h2 : x = k
      · simp only [if_neg h1, if_pos h2]
        refine ⟨by rw [h2], ?_⟩
        intro hk
        exact absurd (h2 ▸ hx k hk) (lt_irrefl k)
      · have hk : k ∈ xs := by
          rcases List.mem_cons.mp h with hk | hk
          · exact absurd hk.symm h2
          · exact hk
        obtain ⟨ih1, ih2⟩ := ih hxs hk
        simp only [if_neg h1, if_neg h2]
        refine ⟨ih1, ?_⟩
        intro hmem
        rcases List.mem_cons.mp hmem with hk' | hk'
        · exact h2 hk'.symm
        · exact ih2 hk'

/-- C5: starting from `OrderedListSet::new()`, after any sequence of insert
and remove calls the list is sorted strictly ascending with no duplicates,
and `iter()` yields its elements in strictly ascending order with no
duplicates. -/
theorem ordered_set_sorted_nodup (ops : List (SetOp T)) :
    (list_iter (apply_ops ([] : List T) ops)).Sorted (· < ·) ∧
    (list_iter (apply_ops ([] : List T) ops)).Nodup := by
  have hs : (apply_ops ([] : List T) ops).Sorted (· < ·) :=
    sorted_apply_ops List.sorted_nil ops
  exact ⟨hs, hs.nodup⟩

/-- C6: `insert` fails with an error carrying back the rejected key exactly
when the key is present, `remove` fails with a unit error exactly when the
key is absent, and in both failure cases the list is unchanged. -/
theorem insert_remove_failure (l : List T) (k : T) (hs : l.Sorted (· < ·)) :
    (k ∈ l → list_insert l k = (Except.error k, l)) ∧
    (k ∉ l → (list_insert l k).1 = Except.ok ()) ∧
    (k ∉ l → list_remove l k = (Except.error (), l)) ∧
    (k ∈ l → (list_remove l k).1 = Except.ok k) :=
  ⟨fun h => list_insert_of_mem hs h,
   fun h => list_insert_of_not_mem h,
   fun h => list_remove_of_not_mem h,
   fun h => (list_remove_of_mem hs h).1⟩

/-- Witness for C5 at a concrete operation sequence. -/
theorem ordered_set_sorted_nodup_witness :
    (list_iter (apply_ops ([] : List Int)
      [SetOp.ins 3, SetOp.ins 1, SetOp.rem 3])).Sorted (· < ·) ∧
    (list_iter (apply_ops ([] : List Int)
      [SetOp.ins 3, SetOp.ins 1, SetOp.rem 3])).Nodup :=
  ordered_set_sorted_nodup [SetOp.ins 3, SetOp.ins 1, SetOp.rem 3]

/-- Witness for C6 at concrete inputs. -/
theorem insert_remove_failure_witness :
    list_insert [(1 : Int), 3] 3 = (Except.error 3, [1, 3]) ∧
    (list_insert [(1 : Int), 3] 2).1 = Except.ok () ∧
    list_remove [(1 : Int), 3] 2 = (Except.error (), [1, 3]) ∧
    (list_remove [(1 : Int), 3] 3).1 = Except.ok 3 :=
  ⟨(insert_remove_failure [(1 : Int), 3] 3 (by decide)).1 (by decide),
   (insert_remove_failure [(1 : Int), 3] 2 (by decide)).2.1 (by decide),
   (insert_remove_failure [(1 : Int), 3] 2 (by decide)).2.2.1 (by decide),
   (insert_remove_failure [(1 : Int), 3] 3 (by decide)).2.2.2 (by decide)⟩

/-- C9: on a sorted list containing the key, `remove` returns `Ok` carrying
the removed element's value itself, and afterwards the element is no longer
in the set (`contains` is false and it is not a member). -/
theorem remove_returns_removed_value (l : List T) (k : T)
    (hs : l.Sorted (· < ·)) (hm : k ∈ l) :
    (list_remove l k).1 = Except.ok k ∧
    list_contains (list_remove l k).2 k = false ∧
    k ∉ (list_remove l k).2 := by
  obtain ⟨h1, h2⟩ := list_remove_of_mem hs hm
  refine ⟨h1, ?_, h2⟩
  have hs' : ((list_remove l k).2).Sorted (· < ·) := sorted_list_remove hs k
  rw [list_contains]
  rw [← Bool.not_eq_true]
  rw [cursor_find_iff_mem hs']
  exact h2

/-- Witness for C9 at a concrete input. -/
theorem remove_returns_removed_value_witness :
    (list_remove [(1 : Int), 2] 1).1 = Except.ok 1 ∧
    list_contains (list_remove [(1 : Int), 2] 1).2 1 = false ∧
    (1 : Int) ∉ (list_remove [(1 : Int), 2] 1).2 :=
  remove_returns_removed_value [(1 : Int), 2] 1 (by decide) (by decide)

end ListSet

namespace Hazard

/-- Accumulator-generalized membership in the `all_hazards` fold. -/
lemma mem_all_hazards_fold (slots : List HazardSlotM) (acc : Finset Nat)
    (x : Nat) :
    (x ∈ slots.foldl
        (fun acc s => if s.active then insert s.hazard acc else acc) acc) ↔
    x ∈ acc ∨ ∃ s ∈ slots, s.active = true ∧ s.hazard = x := by
  induction slots generalizing acc with
  | nil => simp
  | cons s rest ih =>
    simp only [List.foldl_cons]
    by_cases hs : s.active
    · rw [if_pos hs, ih]
      simp only [Finset.mem_insert, List.mem_cons]
      constructor
      · rintro (⟨h | h⟩ | ⟨t, ht, hact, hx⟩)
        · exact Or.inr ⟨s, Or.inl rfl, hs, h.symm⟩
        · exact Or.inl h
        · exact Or.inr ⟨t, Or.inr ht, hact, hx⟩
      · rintro (h | ⟨t, ht | ht, hact, hx⟩)
        · exact Or.inl (Or.inr h)
        · exact Or.inl (Or.inl (by rw [ht] at hx; exact hx.symm))
        · exact Or.inr ⟨t, ht, hact, hx⟩
    · rw [if_neg hs, ih]
      simp only [List.mem_cons]
      constructor
      · rintro (h | ⟨t, ht, hact, hx⟩)
        · exact Or.inl h
        · exact Or.inr ⟨t, Or.inr ht, hact, hx⟩
      · rintro (h | ⟨t, ht | ht, hact, hx⟩)
        · exact Or.inl h
        · exact absurd (ht ▸ hact) (by simpa using hs)
        · exact Or.inr ⟨t, ht, hact, hx⟩

/-- Membership in the snapshot: exactly the hazard words of slots observed
active, the value 0 not excluded. -/
lemma mem_all_hazards (slots : List HazardSlotM) (x : Nat) :
    x ∈ all_hazards slots ↔
    ∃ s ∈ slots, s.active = true ∧ s.hazard = x := by
  rw [all_hazards, mem_all_hazards_fold]
  simp

/-- C10: `all_hazards` inserts the hazard word of every slot observed
active, without filtering out 0; in particular when some active slot
protects nothing (hazard word 0), the snapshot contains 0. -/
theorem all_hazards_keeps_zero (slots : List HazardSlotM) (s : HazardSlotM)
    (hmem : s ∈ slots) (hact : s.active = true) :
    s.hazard ∈ all_hazards slots ∧
    (s.hazard = 0 → 0 ∈ all_hazards slots) := by
  have h : s.hazard ∈ all_hazards slots :=
    (mem_all_hazards slots s.hazard).mpr ⟨s, hmem, hact, rfl⟩
  exact ⟨h, fun h0 => h0 ▸ h⟩

/-- Witness for C10 at a concrete registry. -/
theorem all_hazards_keeps_zero_witness :
    (0 : Nat) ∈ all_hazards [⟨true, 0⟩, ⟨false, 7⟩] ∧
    ((0 : Nat) = 0 → 0 ∈ all_hazards [⟨true, 0⟩, ⟨false, 7⟩]) := by
  have h := all_hazards_keeps_zero [⟨true, 0⟩, ⟨false, 7⟩] ⟨true, 0⟩
    (by decide) (by decide)
  exact h

/-- The recycling walk fails exactly when no slot is inactive. -/
lemma try_acquire_inactive_eq_none (slots : List HazardSlotM) :
    try_acquire_inactive slots = none ↔ count_inactive slots = 0 := by
  rw [count_inactive, List.countP_eq_zero]
  induction slots with
  | nil => simp [try_acquire_inactive]
  | cons s rest ih =>
    by_cases hs : s.active
    · simp only [try_acquire_inactive, if_pos hs]
      cases h : try_acquire_inactive rest with
      | none =>
        rw [h] at ih
        simp only [List.mem_cons]
        constructor
        · rintro - a (rfl | ha)
          · simp [hs]
          · exact ih.mp rfl a ha
        · intro _; trivial
      | some p =>
        rw [h] at ih
        simp only [List.mem_cons]
        constructor
        · rintro hcontra; exact absurd hcontra (by simp)
        · intro hall
          exfalso
          have : ∀ a ∈ rest, ¬(!a.active) = true := fun a ha =>
            hall a (Or.inr ha)
          exact absurd (ih.mpr this) (by simp)
    · simp only [try_acquire_inactive, if_neg hs]
      constructor
      · rintro hcontra; exact absurd hcontra (by simp)
      · intro hall
        exact absurd (hall s (by simp)) (by simp [hs])

/-- A successful recycling walk preserves the slot count and consumes
exactly one inactive slot. -/
lemma try_acquire_inactive_stats {slots : List HazardSlotM}
    {p : Nat × List HazardSlotM} (h : try_acquire_inactive slots = some p) :
    p.2.length = slots.length ∧
    count_inactive slots = count_inactive p.2 + 1 := by
  induction slots generalizing p with
  | nil => simp [try_acquire_inactive] at h
  | cons s rest ih =>
    by_cases hs : s.active
    · simp only [try_acquire_inactive, if_pos hs] at h
      cases hr : try_acquire_inactive rest with
      | none => rw [hr] at h; simp at h
      | some q =>
        rw [hr] at h
        simp only [Option.some.injEq] at h
        obtain ⟨hq1, hq2⟩ := ih hr
        subst h
        constructor
        · simpa using hq1
        · simp only [count_inactive, List.countP_cons] at *
          simp [hs, hq2]
    · simp only [try_acquire_inactive, if_neg hs, Option.some.injEq] at h
      subst h
      constructor
      · simp
      · simp only [count_inactive, List.countP_cons]
        simp [hs]

/-- When an inactive slot exists, `acquire_slot` recycles: it allocates
nothing and the registry keeps its length, losing one inactive slot. -/
lemma acquire_slot_recycles (slots : List HazardSlotM)
    (h : 0 < count_inactive slots) :
    (acquire_slot slots).2 = false ∧
    (acquire_slot slots).1.length = slots.length ∧
    count_inactive (acquire_slot slots).1 + 1 = count_inactive slots := by
  cases hr : try_acquire_inactive slots with
  | none =>
    exact absurd ((try_acquire_inactive_eq_none slots).mp hr) (by omega)
  | some p =>
    obtain ⟨h1, h2⟩ := try_acquire_inactive_stats hr
    simp only [acquire_slot, hr]
    exact ⟨by trivial, h1, h2.symm⟩

/-- As long as at least `m` inactive slots exist, `m` successive acquires
allocate nothing: the registry length is unchanged. -/
lemma acquire_many_no_alloc {m : Nat} {slots : List HazardSlotM}
    (h : m ≤ count_inactive slots) :
    (acquire_many m slots).length = slots.length := by
  induction m generalizing slots with
  | zero => rfl
  | succ m ih =>
    obtain ⟨-, hlen, hcount⟩ := acquire_slot_recycles slots (by omega)
    have : m ≤ count_inactive (acquire_slot slots).1 := by omega
    rw [acquire_many, ih this, hlen]

/-- Releasing an active slot adds one inactive slot. -/
lemma count_inactive_release (slots : List HazardSlotM) (i : Nat)
    (h : i < slots.length) (hact : slots[i].active = true) :
    count_inactive (release_slot slots i) = count_inactive slots + 1 := by
  induction slots generalizing i with
  | nil => simp at h
  | cons s rest ih =>
    cases i with
    | zero =>
      simp only [List.getElem_cons_zero] at hact
      simp [release_slot, count_inactive, List.countP_cons, hact]
    | succ i =>
      simp only [List.getElem_cons_succ] at hact
      have hi : i < rest.length := by simpa using h
      have := ih i hi hact
      simp only [release_slot, List.set_cons_succ, count_inactive,
        List.countP_cons] at *
      omega

/-- Releasing a set of distinct shields (each holding an active slot) keeps
the registry length and adds one inactive slot per shield. -/
lemma release_all_stats (slots : List HazardSlotM) (idxs : List Nat)
    (hnd : idxs.Nodup)
    (hval : ∀ i ∈ idxs, ∃ h : i < slots.length, slots[i].active = true) :
    (release_all slots idxs).length = slots.length ∧
    count_inactive (release_all slots idxs) =
      count_inactive slots + idxs.length := by
  induction idxs generalizing slots with
  | nil => simp [release_all]
  | cons i idxs ih =>
    obtain ⟨hi, hact⟩ := hval i (by simp)
    have hnd' : idxs.Nodup := hnd.of_cons
    have hne : ∀ j ∈ idxs, j ≠ i := fun j hj hji =>
      (List.nodup_cons.mp hnd).1 (hji ▸ hj)
    have hval' : ∀ j ∈ idxs,
        ∃ h : j < (release_slot slots i).length,
          (release_slot slots i)[j].active = true := by
      intro j hj
      obtain ⟨hjl, hjact⟩ := hval j (by simp [hj])
      have hjl' : j < (release_slot slots i).length := by
        simpa [release_slot] using hjl
      refine ⟨hjl', ?_⟩
      have : (release_slot slots i)[j] = slots[j] := by
        simp only [release_slot]
        exact List.getElem_set_ne (fun hij => hne j hj hij.symm) _
      rw [this]
      exact hjact
    obtain ⟨ihlen, ihcount⟩ := ih (release_slot slots i) hnd' hval'
    have hrl : (release_slot slots i).length = slots.length := by
      simp [release_slot]
    have hrc : count_inactive (release_slot slots i) =
        count_inactive slots + 1 :=
      count_inactive_release slots i hi hact
    refine ⟨?_, ?_⟩
    · simp only [release_all, List.foldl_cons] at *
      rw [ihlen, hrl]
    · simp only [release_all, List.foldl_cons] at *
      rw [ihcount, hrc, List.length_cons]
      omega

/-- C8: `acquire_slot` recycles the first inactive slot found while walking
from the head and allocates only when every slot is active; consequently,
after releasing N shields and then acquiring at most N shields, the
registry has not grown. -/
theorem acquire_slot_recycling :
    (∀ slots : List HazardSlotM, (∃ s ∈ slots, s.active = false) →
      (acquire_slot slots).2 = false ∧
      (acquire_slot slots).1.length = slots.length) ∧
    (∀ slots : List HazardSlotM, (∀ s ∈ slots, s.active = true) →
      acquire_slot slots = (HazardSlotM.fresh :: slots, true)) ∧
    (∀ (slots slots' : List HazardSlotM) (i : Nat),
      try_acquire_inactive slots = some (i, slots') →
      ∃ h : i < slots.length, slots[i].active = false ∧
        (∀ j, ∀ hj : j < slots.length, j < i → slots[j].active = true) ∧
        slots' = slots.set i ⟨true, slots[i].hazard⟩) ∧
    (∀ (slots : List HazardSlotM) (idxs : List Nat) (m : Nat),
      idxs.Nodup →
      (∀ i ∈ idxs, ∃ h : i < slots.length, slots[i].active = true) →
      m ≤ idxs.length →
      (acquire_many m (release_all slots idxs)).length = slots.length) := by
  refine ⟨?_, ?_, ?_, ?_⟩
  · intro slots hex
    have hpos : 0 < count_inactive slots := by
      rw [count_inactive, List.countP_pos_iff]
      obtain ⟨s, hs, hact⟩ := hex
      exact ⟨s, hs, by simp [hact]⟩
    obtain ⟨h1, h2, -⟩ := acquire_slot_recycles slots hpos
    exact ⟨h1, h2⟩
  · intro slots hall
    have hz : count_inactive slots = 0 := by
      rw [count_inactive, List.countP_eq_zero]
      intro s hs
      simp [hall s hs]
    rw [acquire_slot, (try_acquire_inactive_eq_none slots).mpr hz]
  · intro slots slots' i h
    induction slots generalizing i slots' with
    | nil => simp [try_acquire_inactive] at h
    | cons s rest ih =>
      by_cases hs : s.active
      · simp only [try_acquire_inactive, if_pos hs] at h
        cases hr : try_acquire_inactive rest with
        | none => rw [hr] at h; simp at h
        | some q =>
          rw [hr] at h
          simp only [Option.some.injEq, Prod.mk.injEq] at h
          obtain ⟨hi, hsl⟩ := h
          obtain ⟨hq, hact', hbefore, hset⟩ := ih q.2 q.1 (by rw [hr])
          have hi' : i = q.1 + 1 := hi.symm
          subst hi'
          refine ⟨by simpa using Nat.succ_lt_succ hq, ?_, ?_, ?_⟩
          · simpa using hact'
          · intro j hj hji
            cases j with
            | zero => simpa using hs
            | succ j =>
              have : j < q.1 := by omega
              simpa using hbefore j (by simpa using hj) this
          · rw [← hsl, hset]
            simp [List.set_cons_succ]
      · simp only [try_acquire_inactive, if_neg hs, Option.some.injEq,
          Prod.mk.injEq] at h
        obtain ⟨hi, hsl⟩ := h
        subst hi
        refine ⟨by simp, by simpa using hs, by omega, ?_⟩
        rw [← hsl]
        simp
  · intro slots idxs m hnd hval hm
    obtain ⟨hlen, hcount⟩ := release_all_stats slots idxs hnd hval
    have : m ≤ count_inactive (release_all slots idxs) := by omega
    rw [acquire_many_no_alloc this, hlen]

/-- Witness for C8 at concrete registries. -/
theorem acquire_slot_recycling_witness :
    ((acquire_slot [⟨true, 5⟩, ⟨false, 0⟩]).2 = false ∧
      (acquire_slot [⟨true, 5⟩, ⟨false, 0⟩]).1.length = 2) ∧
    acquire_slot [⟨true, 5⟩] = (HazardSlotM.fresh :: [⟨true, 5⟩], true) ∧
    (acquire_many 2 (release_all [⟨true, 5⟩, ⟨true, 6⟩] [0, 1])).length = 2 := by
  refine ⟨?_, ?_, ?_⟩
  · exact acquire_slot_recycling.1 [⟨true, 5⟩, ⟨false, 0⟩]
      ⟨⟨false, 0⟩, by decide, rfl⟩
  · exact acquire_slot_recycling.2.1 [⟨true, 5⟩] (by decide)
  · refine acquire_slot_recycling.2.2.2 [⟨true, 5⟩, ⟨true, 6⟩] [0, 1] 2
      (by decide) ?_ (by decide)
    intro i hi
    rcases List.mem_cons.mp hi with rfl | hi'
    · exact ⟨by decide, rfl⟩
    · rcases List.mem_cons.mp hi' with rfl | hi''
      · exact ⟨by decide, rfl⟩
      · simp at hi''

/-- C7: `try_protect` validates exactly when the reloaded `src` equals the
published pointer; on success `*pointer` is unchanged and the hazard word
holds it, on failure `*pointer` is overwritten with the fresh load and the
hazard word is cleared to 0. -/
theorem try_protect_spec (p src_now h0 : Nat) :
    ((try_protect p src_now h0).validated = true ↔ src_now = p) ∧
    ((try_protect p src_now h0).validated = true →
      (try_protect p src_now h0).pointer = p ∧
      (try_protect p src_now h0).hazard = p) ∧
    ((try_protect p src_now h0).validated = false →
      (try_protect p src_now h0).pointer = src_now ∧
      (try_protect p src_now h0).hazard = 0) := by
  by_cases h : p = src_now
  · simp [try_protect, h]
  · simp [try_protect, h]
    exact fun hw => absurd hw.symm h

/-- Witness for C7 at concrete inputs (one validated, one failed). -/
theorem try_protect_spec_witness :
    ((try_protect 12 12 0).validated = true → (try_protect 12 12 0).pointer = 12 ∧
      (try_protect 12 12 0).hazard = 12) ∧
    ((try_protect 12 34 0).validated = false → (try_protect 12 34 0).pointer = 34 ∧
      (try_protect 12 34 0).hazard = 0) :=
  ⟨(try_protect_spec 12 12 0).2.1, (try_protect_spec 12 34 0).2.2⟩

/-- C4: `collect` partitions the buffer against a single `all_hazards()`
snapshot: the freed entries are exactly those whose pointer is absent from
the snapshot (each freed by its own deleter), and exactly the entries whose
pointer is in the snapshot remain in the buffer, in order. -/
theorem collect_partitions {D : Type} (r : RetiredSetM D) :
    (r.collect).2 =
      r.inner.filter (fun pd => decide (pd.1 ∉ all_hazards r.hazards)) ∧
    (r.collect).1.inner =
      r.inner.filter (fun pd => decide (pd.1 ∈ all_hazards r.hazards)) ∧
    (r.collect).1.hazards = r.hazards := by
  have key : ∀ (hz : Finset Nat) (l : List (Nat × D)),
      collect_loop hz l = (l.filter (fun pd => decide (pd.1 ∉ hz)),
        l.filter (fun pd => decide (pd.1 ∈ hz))) := by
    intro hz l
    induction l with
    | nil => simp [collect_loop]
    | cons pd rest ih =>
      obtain ⟨p, d⟩ := pd
      by_cases hp : p ∈ hz
      · simp [collect_loop, hp, ih]
      · simp [collect_loop, hp, ih]
  rw [RetiredSetM.collect]
  simp only [key]
  exact ⟨trivial, trivial, trivial⟩

/-- Witness for C4 at a concrete retired set. -/
theorem collect_partitions_witness :
    ((⟨[⟨true, 5⟩], [(5, 0), (7, 1)]⟩ : RetiredSetM Nat).collect).2 =
      ([(5, 0), (7, 1)] : List (Nat × Nat)).filter
        (fun pd => decide (pd.1 ∉ all_hazards [⟨true, 5⟩])) ∧
    ((⟨[⟨true, 5⟩], [(5, 0), (7, 1)]⟩ : RetiredSetM Nat).collect).1.inner =
      ([(5, 0), (7, 1)] : List (Nat × Nat)).filter
        (fun pd => decide (pd.1 ∈ all_hazards [⟨true, 5⟩])) ∧
    ((⟨[⟨true, 5⟩], [(5, 0), (7, 1)]⟩ : RetiredSetM Nat).collect).1.hazards =
      [⟨true, 5⟩] :=
  collect_partitions ⟨[⟨true, 5⟩], [(5, 0), (7, 1)]⟩

end Hazard

namespace Pool

/-- C1 (code bug): the claim demands that the counter be decremented on
every exit path of the wrapped job, but the closure built by `execute` has
no scope guard: a panicking job skips `finish_job`, leaving the counter at
1 after the only submitted job, so `wait_empty`'s exit condition can never
become true, while a normally returning job does decrement it to 0. -/
theorem panicking_job_skips_finish_job :
    (run_wrapped_job JobOutcome.panicked (start_job ⟨0⟩)).1.job_count = 1 ∧
    (run_wrapped_job JobOutcome.panicked (start_job ⟨0⟩)).2 = false ∧
    wait_empty_exits
      (run_wrapped_job JobOutcome.panicked (start_job ⟨0⟩)).1 = false ∧
    (run_wrapped_job JobOutcome.normal (start_job ⟨0⟩)).1.job_count = 0 :=
  ⟨rfl, rfl, rfl, rfl⟩

/-- C3 (code bug): on a nonzero counter the `wait_empty` loop iteration
does not exit and performs only lock/print/unlock — it never waits on
`empty_condvar` (for any counter value), `finish_job` never notifies it,
and `join` leaves the pool state untouched, so it does not shut the pool
down and may be called repeatedly. -/
theorem wait_empty_busy_waits :
    wait_empty_exits ⟨1⟩ = false ∧
    PoolPrim.condvar_wait ∉ wait_empty_iter_prims 1 ∧
    (∀ n : Nat, PoolPrim.condvar_wait ∉ wait_empty_iter_prims n) ∧
    PoolPrim.condvar_notify ∉ finish_job_prims ∧
    (∀ s : ThreadPoolInner, pool_join s = s) := by
  refine ⟨rfl, by decide, ?_, by decide, fun s => rfl⟩
  intro n
  rw [wait_empty_iter_prims]
  by_cases hn : n = 0
  · simp [hn]
  · simp [hn]

end Pool

namespace Cache

/-- The initial configuration satisfies the invariant. -/
lemma inv_init {I V : Type} (f : I → V) : Inv f (Config.init I V) :=
  ⟨rfl, fun _ => Or.inl rfl⟩

/-- Every step preserves the invariant. -/
lemma inv_step {I V : Type} [DecidableEq I] {f : I → V}
    {c c' : Config I V} (hinv : Inv f c) (hstep : Step f c c') :
    Inv f c' := by
  cases hstep with
  | read_ready i v hs he =>
    rw [Inv, he] at hinv
    obtain ⟨i0, hruns, hv, hall⟩ := hinv
    rw [Inv]
    simp only [he]
    refine ⟨i0, hruns, hv, ?_⟩
    intro j
    by_cases hj : j = i
    · subst hj
      simp [Function.update_same]
    · rw [Function.update_noteq hj]
      exact hall j
  | read_pending i hs he =>
    rw [Inv, he] at hinv
    obtain ⟨i0, hmain, hothers⟩ := hinv
    have hii0 : i ≠ i0 := by
      intro hii
      rcases hmain with ⟨h0, -⟩ | ⟨h0, -⟩ <;> rw [← hii] at h0 <;>
        rw [hs] at h0 <;> exact absurd h0 (by simp)
    rw [Inv]
    simp only [he]
    refine ⟨i0, ?_, ?_⟩
    · rcases hmain with ⟨h0, hr⟩ | ⟨h0, hr⟩
      · exact Or.inl ⟨by rw [Function.update_noteq (Ne.symm hii0)]; exact h0, hr⟩
      · exact Or.inr ⟨by rw [Function.update_noteq (Ne.symm hii0)]; exact h0, hr⟩
    · intro j hj
      by_cases hji : j = i
      · subst hji
        simp [Function.update_same]
      · rw [Function.update_noteq hji]
        exact hothers j hj
  | read_absent i hs he =>
    rw [Inv, he] at hinv
    obtain ⟨hruns, hall⟩ := hinv
    rw [Inv]
    simp only [he]
    refine ⟨hruns, ?_⟩
    intro j
    by_cases hj : j = i
    · subst hj
      simp [Function.update_same]
    · rw [Function.update_noteq hj]
      exact hall j
  | write_elect i hs he =>
    rw [Inv, he] at hinv
    obtain ⟨hruns, hall⟩ := hinv
    rw [Inv]
    refine ⟨i, Or.inl ⟨by simp [Function.update_same], hruns⟩, ?_⟩
    intro j hj
    simp only [Function.update_noteq hj]
    rcases hall j with h | h
    · exact Or.inl h
    · exact Or.inr (Or.inl h)
  | write_lost i hs hne =>
    rw [Inv] at hinv ⊢
    cases hentry : c.entry with
    | absent => exact absurd hentry hne
    | pending =>
      rw [hentry] at hinv
      obtain ⟨i0, hmain, hothers⟩ := hinv
      have hii0 : i ≠ i0 := by
        intro hii
        rcases hmain with ⟨h0, -⟩ | ⟨h0, -⟩ <;> rw [← hii] at h0 <;>
          rw [hs] at h0 <;> exact absurd h0 (by simp)
      simp only [hentry]
      refine ⟨i0, ?_, ?_⟩
      · rcases hmain with ⟨h0, hr⟩ | ⟨h0, hr⟩
        · exact Or.inl ⟨by rw [Function.update_noteq (Ne.symm hii0)]; exact h0, hr⟩
        · exact Or.inr ⟨by rw [Function.update_noteq (Ne.symm hii0)]; exact h0, hr⟩
      · intro j hj
        by_cases hji : j = i
        · subst hji
          simp [Function.update_same]
        · rw [Function.update_noteq hji]
          exact hothers j hj
    | ready v =>
      rw [hentry] at hinv
      obtain ⟨i0, hruns, hv, hall⟩ := hinv
      simp only [hentry]
      refine ⟨i0, hruns, hv, ?_⟩
      intro j
      by_cases hj : j = i
      · subst hj
        simp [Function.update_same]
      · rw [Function.update_noteq hj]
        exact hall j
  | produce i hs =>
    rw [Inv] at hinv ⊢
    cases hentry : c.entry with
    | absent =>
      rw [hentry] at hinv
      rcases hinv.2 i with h | h <;> rw [hs] at h <;> exact absurd h (by simp)
    | ready v =>
      rw [hentry] at hinv
      obtain ⟨i0, -, -, hall⟩ := hinv
      rcases hall i with h | h | h | h <;> rw [hs] at h <;>
        exact absurd h (by simp)
    | pending =>
      rw [hentry] at hinv
      obtain ⟨i0, hmain, hothers⟩ := hinv
      have hii0 : i = i0 := by
        by_contra hii
        rcases hothers i hii with h | h | h <;> rw [hs] at h <;>
          exact absurd h (by simp)
      subst hii0
      rcases hmain with ⟨-, hruns⟩ | ⟨h0, -⟩
      · simp only [hentry]
        refine ⟨i, Or.inr ⟨by simp [Function.update_same], by rw [hruns]; rfl⟩, ?_⟩
        intro j hj
        rw [Function.update_noteq hj]
        exact hothers j hj
      · rw [hs] at h0
        exact absurd h0 (by simp)
  | write_back_commit i v hs =>
    rw [Inv] at hinv ⊢
    cases hentry : c.entry with
    | absent =>
      rw [hentry] at hinv
      rcases hinv.2 i with h | h <;> rw [hs] at h <;> exact absurd h (by simp)
    | ready w =>
      rw [hentry] at hinv
      obtain ⟨i0, -, -, hall⟩ := hinv
      rcases hall i with h | h | h | h <;> rw [hs] at h <;>
        exact absurd h (by simp)
    | pending =>
      rw [hentry] at hinv
      obtain ⟨i0, hmain, hothers⟩ := hinv
      have hii0 : i = i0 := by
        by_contra hii
        rcases hothers i hii with h | h | h <;> rw [hs] at h <;>
          exact absurd h (by simp)
      subst hii0
      rcases hmain with ⟨h0, -⟩ | ⟨h0, hruns⟩
      · rw [hs] at h0
        exact absurd h0 (by simp)
      · rw [hs] at h0
        have hv : v = f i := by
          injection h0
        refine ⟨i, by rw [hruns], hv, ?_⟩
        intro j
        by_cases hj : j = i
        · subst hj
          simp [Function.update_same]
        · simp only [Function.update_noteq hj]
          rcases hothers j hj with h | h | h
          · exact Or.inl h
          · exact Or.inr (Or.inl h)
          · exact Or.inr (Or.inr (Or.inl h))
  | poll_ready i v hs he =>
    rw [Inv, he] at hinv
    obtain ⟨i0, hruns, hv, hall⟩ := hinv
    rw [Inv]
    simp only [he]
    refine ⟨i0, hruns, hv, ?_⟩
    intro j
    by_cases hj : j = i
    · subst hj
      simp [Function.update_same]
    · rw [Function.update_noteq hj]
      exact hall j

/-- Every reachable configuration satisfies the invariant. -/
lemma inv_reachable {I V : Type} [DecidableEq I] {f : I → V}
    {c : Config I V} (h : Reachable f c) : Inv f c := by
  induction h with
  | refl => exact inv_init f
  | tail hsteps hstep ih => exact inv_step ih hstep

/-- C2: in every interleaving of concurrent `get_or_insert_with` calls on
the same key, the producer is invoked at most once in total, and every call
that returns a value returns the value computed by that single producer
run. -/
theorem cache_single_flight {I V : Type} [DecidableEq I] (f : I → V)
    (c : Config I V) (h : Reachable f c) :
    c.runs.length ≤ 1 ∧
    ∀ i v, c.tstate i = TState.done v →
      ∃ i0, c.runs = [i0] ∧ v = f i0 := by
  have hinv := inv_reachable h
  rw [Inv] at hinv
  cases hentry : c.entry with
  | absent =>
    rw [hentry] at hinv
    obtain ⟨hruns, hall⟩ := hinv
    refine ⟨by rw [hruns]; exact Nat.zero_le 1, ?_⟩
    intro i v hi
    rcases hall i with h | h <;> rw [hi] at h <;> exact absurd h (by simp)
  | pending =>
    rw [hentry] at hinv
    obtain ⟨i0, hmain, hothers⟩ := hinv
    refine ⟨?_, ?_⟩
    · rcases hmain with ⟨-, hr⟩ | ⟨-, hr⟩ <;> rw [hr] <;> simp
    · intro i v hi
      by_cases hii : i = i0
      · subst hii
        rcases hmain with ⟨h0, -⟩ | ⟨h0, -⟩ <;> rw [hi] at h0 <;>
          exact absurd h0 (by simp)
      · rcases hothers i hii with h | h | h <;> rw [hi] at h <;>
          exact absurd h (by simp)
  | ready w =>
    rw [hentry] at hinv
    obtain ⟨i0, hruns, hw, hall⟩ := hinv
    refine ⟨by rw [hruns]; exact le_refl 1, ?_⟩
    intro i v hi
    rcases hall i with h | h | h | h
    · rw [hi] at h; exact absurd h (by simp)
    · rw [hi] at h; exact absurd h (by simp)
    · rw [hi] at h; exact absurd h (by simp)
    · rw [hi] at h
      have hv : v = w := by injection h
      exact ⟨i0, hruns, hv ▸ hw⟩

/-- Witness for C2: the initial configuration is reachable and the theorem
applies to it. -/
theorem cache_single_flight_witness :
    (Config.init Unit Nat).runs.length ≤ 1 ∧
    ∀ i v, (Config.init Unit Nat).tstate i = TState.done v →
      ∃ i0, (Config.init Unit Nat).runs = [i0] ∧ v = (fun _ => 42) i0 :=
  cache_single_flight (fun _ => 42) (Config.init Unit Nat)
    Relation.ReflTransGen.refl

end Cache
